import Mathlib

/-!
# Verification of the streaming examples in `streams.example.js`

Shallow embedding of the pipeline code in `src/streams.example.js` and of
the generic pipeline abstraction the specification derives from it
(Chunk / Source / Sink / Stage / Pipe / Duplex).

A `Chunk` is modelled as a list of characters (the payload of a Node
buffer interpreted as text, which is how every example uses it); for
the re-chunking analysis the byte level is modelled as well, with
chunks as lists of byte values and an explicit per-chunk UTF-8 decode
mirroring `chunk.toString()`.  The platform stream machinery (the pipe
control loop, the writable-side closed check, the Buffer decode and
string encode, the gzip codec) is not part of the repository source, so
those pieces are modelled from the specification and marked as such in
their doc comments; the functions written in `streams.example.js`
(the uppercase transform body, the duplex read and write bodies) are
translated directly from the source.
-/

/-- A unit of binary data flowing through the pipeline (spec section 3). -/
abbrev Chunk := List Char

/-- The textual encoding tag passed to transform callbacks; the examples
never construct one explicitly, Node passes a string such as "utf8". -/
abbrev Encoding := String

/-- Error taxonomy of spec section 7. -/
inductive ErrorKind where
  | ioFailure
  | closed
  | timeout
  | transformFailure
  | cancelled
deriving DecidableEq, Repr

/-! ## The `logChars` duplex (source lines 84-108)

The duplex owns two independent state machines: an outbound readable
side whose only state is `currentCharCode` (initialised to 65, the
ASCII code of 'A', at line 99), and an inbound writable side that logs
every chunk written to it.  `writeEnded` records that `end()` was
called on the writable side; `writeLog` records the chunks the write
implementation logged. -/

structure DuplexState where
  currentCharCode : Nat
  writeEnded : Bool
  writeLog : List Chunk
deriving DecidableEq, Repr

/-- Initial state of `myDuplexStream`: line 99 sets `currentCharCode = 65`. -/
def logCharsInit : DuplexState :=
  { currentCharCode := 65, writeEnded := false, writeLog := [] }

/-- The `read(size)` implementation (lines 90-96), translated directly:
if `currentCharCode > 90` it pushes `null` (modelled as `none`, the End
signal) and leaves the state alone; otherwise it pushes the one-character
chunk `String.fromCharCode(currentCharCode)` and increments the cursor. -/
def logCharsRead (s : DuplexState) : Option Chunk × DuplexState :=
  if s.currentCharCode > 90 then
    (none, s)
  else
    (some [Char.ofNat s.currentCharCode],
      { s with currentCharCode := s.currentCharCode + 1 })

/-- Result of a `write` call on a Sink (spec section 4.2). -/
inductive WriteResult where
  | accepted
  | backpressured
  | error (kind : ErrorKind)
deriving DecidableEq, Repr

/-- The `write(chunk, encoding, callback)` implementation (lines 86-89)
logs the chunk and completes without error.  Modelled from the spec:
the guard on the closed flag is enforced by the platform writable-side
machinery, which is not in the repository; spec section 4.2 maps a
write after close to a failure with `ErrorKind.Closed`. -/
def logCharsWrite (s : DuplexState) (c : Chunk) : WriteResult × DuplexState :=
  if s.writeEnded then
    (.error .closed, s)
  else
    (.accepted, { s with writeLog := s.writeLog ++ [c] })

/-- Modelled from the spec: `myDuplexStream.end()` (line 107) closes the
inbound writable side; the platform Duplex keeps the two sides
independent, so only the `writeEnded` flag changes. -/
def endWrite (s : DuplexState) : DuplexState :=
  { s with writeEnded := true }

/-- Repeatedly poll the readable side, collecting the chunks produced,
until it signals End or the fuel runs out. -/
def drainRead : Nat → DuplexState → List Chunk × DuplexState
  | 0, s => ([], s)
  | fuel + 1, s =>
      match logCharsRead s with
      | (none, s1) => ([], s1)
      | (some c, s1) =>
          let r := drainRead fuel s1
          (c :: r.1, r.2)

/-- Iterate the readable side `n` times keeping only the state. -/
def readTailState : Nat → DuplexState → DuplexState
  | 0, s => s
  | n + 1, s => readTailState n (logCharsRead s).2

/-- The 26 one-character chunks 'A' through 'Z'. -/
def alphabetChunks : List Chunk :=
  (List.range' 65 26).map (fun n => [Char.ofNat n])

lemma logCharsRead_end_state {s : DuplexState} (h : 90 < s.currentCharCode) :
    logCharsRead s = (none, s) := by
  simp [logCharsRead, h]

lemma logCharsRead_step {s : DuplexState} (h : ¬ 90 < s.currentCharCode) :
    logCharsRead s =
      (some [Char.ofNat s.currentCharCode],
        { s with currentCharCode := s.currentCharCode + 1 }) := by
  simp [logCharsRead, h]

lemma drainRead_spec :
    ∀ (fuel : Nat) (s : DuplexState), 65 ≤ s.currentCharCode →
      s.currentCharCode ≤ 91 → 91 - s.currentCharCode ≤ fuel →
      (drainRead fuel s).1 =
        (List.range' s.currentCharCode (91 - s.currentCharCode)).map
          (fun n => [Char.ofNat n]) := by
  intro fuel
  induction fuel with
  | zero =>
      intro s _ h91 hf
      have : s.currentCharCode = 91 := by omega
      simp [drainRead, this]
  | succ fuel ih =>
      intro s h65 h91 hf
      by_cases hend : 90 < s.currentCharCode
      · have : s.currentCharCode = 91 := by omega
        simp [drainRead, logCharsRead_end_state hend, this]
      · have hstep := logCharsRead_step hend
        have hrange : 91 - s.currentCharCode = (91 - (s.currentCharCode + 1)) + 1 := by
          omega
        have ihs := ih { s with currentCharCode := s.currentCharCode + 1 }
          (by simp; omega) (by simp; omega) (by simp; omega)
        simp only [drainRead, hstep, hrange, List.range'_succ, List.map_cons]
        simpa using ihs

lemma endWrite_read_commute (s : DuplexState) :
    logCharsRead (endWrite s) = ((logCharsRead s).1, endWrite (logCharsRead s).2) := by
  by_cases h : 90 < s.currentCharCode
  · have h2 : 90 < (endWrite s).currentCharCode := h
    rw [logCharsRead_end_state h, logCharsRead_end_state h2]
  · have h2 : ¬ 90 < (endWrite s).currentCharCode := h
    rw [logCharsRead_step h, logCharsRead_step h2]
    rfl

lemma drainRead_endWrite (fuel : Nat) :
    ∀ s : DuplexState, (drainRead fuel (endWrite s)).1 = (drainRead fuel s).1 := by
  induction fuel with
  | zero => intro s; rfl
  | succ fuel ih =>
      intro s
      rw [drainRead, drainRead, endWrite_read_commute s]
      cases h : logCharsRead s with
      | mk r s1 =>
          cases r with
          | none => rfl
          | some c => simp [ih s1]

/-- C4: ending the inbound writable side of the `logChars` duplex leaves
the outbound readable side untouched: the read cursor is unchanged, every
poll sequence produces the same chunks as without the `end()` call, and
from the initial state the full remaining alphabet is still emitted
before End. -/
theorem logChars_endWrite_preserves_readable :
    ∀ s : DuplexState,
      (endWrite s).currentCharCode = s.currentCharCode ∧
      (∀ fuel : Nat, (drainRead fuel (endWrite s)).1 = (drainRead fuel s).1) ∧
      (drainRead 26 (endWrite logCharsInit)).1 = alphabetChunks := by
  intro s
  refine ⟨rfl, fun fuel => drainRead_endWrite fuel s, ?_⟩
  rw [drainRead_endWrite 26 logCharsInit]
  have := drainRead_spec 26 logCharsInit (by decide) (by decide) (by decide)
  simpa [alphabetChunks, logCharsInit] using this

/-- C5: the readable side has an idempotent tail: once a poll has
returned End (the cursor passed 90), the state is frozen and every
subsequent poll returns End again, producing no further chunk. -/
theorem logChars_read_idempotent_tail (s : DuplexState) (n : Nat)
    (h : (logCharsRead s).1 = none) :
    readTailState n s = s ∧ (logCharsRead (readTailState n s)).1 = none := by
  have hgt : 90 < s.currentCharCode := by
    by_contra hle
    rw [logCharsRead_step hle] at h
    simp at h
  have hfix : logCharsRead s = (none, s) := logCharsRead_end_state hgt
  have htail : readTailState n s = s := by
    induction n with
    | zero => rfl
    | succ n ih => rw [readTailState, hfix]; exact ih
  exact ⟨htail, by rw [htail, hfix]⟩

/-- The terminal state the duplex reaches after emitting 'Z'. -/
def logCharsEndState : DuplexState :=
  { currentCharCode := 91, writeEnded := false, writeLog := [] }

/-- Witness for C5 at the terminal state the duplex reaches after 'Z'. -/
theorem logChars_read_idempotent_tail_witness :
    (logCharsRead logCharsEndState).1 = none ∧
      readTailState 5 logCharsEndState = logCharsEndState ∧
      (logCharsRead (readTailState 5 logCharsEndState)).1 = none := by
  refine ⟨by decide, ?_, ?_⟩
  · exact (logChars_read_idempotent_tail _ 5 (by decide)).1
  · exact (logChars_read_idempotent_tail _ 5 (by decide)).2

/-- C6: after the writable side is closed, every write fails with
`ErrorKind.closed` and leaves the sink state untouched: it is never
silently accepted. -/
theorem logChars_write_after_close_fails (s : DuplexState) (c : Chunk) :
    logCharsWrite (endWrite s) c = (.error .closed, endWrite s) := by
  simp [logCharsWrite, endWrite]

/-- C8: the readable side of `logChars` emits exactly the 26 one-character
chunks 'A' through 'Z' in increasing code order and then signals End;
any poll budget of at least 26 produces exactly that sequence, and the
resulting state answers End forever after. -/
theorem logChars_emits_alphabet (fuel : Nat) (h : 26 ≤ fuel) :
    (drainRead fuel logCharsInit).1 = alphabetChunks ∧
      (logCharsRead (drainRead fuel logCharsInit).2).1 = none := by
  constructor
  · have := drainRead_spec fuel logCharsInit (by decide) (by decide)
      (by simp only [logCharsInit]; omega)
    simpa [alphabetChunks, logCharsInit] using this
  · have hstate : ∀ (f : Nat) (s : DuplexState), 65 ≤ s.currentCharCode →
        s.currentCharCode ≤ 91 → 91 - s.currentCharCode ≤ f →
        90 < ((drainRead f s).2).currentCharCode := by
      intro f
      induction f with
      | zero =>
          intro s _ h91 hf
          have : s.currentCharCode = 91 := by omega
          simpa [drainRead] using by omega
      | succ f ih =>
          intro s h65 h91 hf
          by_cases hend : 90 < s.currentCharCode
          · simpa [drainRead, logCharsRead_end_state hend] using hend
          · rw [drainRead, logCharsRead_step hend]
            exact ih _ (by simp; omega) (by simp; omega) (by simp; omega)
    have hgt := hstate fuel logCharsInit (by decide) (by decide)
      (by simp only [logCharsInit]; omega)
    rw [logCharsRead_end_state hgt]

/-- Witness for C8 at the minimal poll budget. -/
theorem logChars_emits_alphabet_witness :
    26 ≤ 26 ∧
      ((drainRead 26 logCharsInit).1 = alphabetChunks ∧
        (logCharsRead (drainRead 26 logCharsInit).2).1 = none) :=
  ⟨by decide, logChars_emits_alphabet 26 (by decide)⟩

/-! ## The uppercase transform stage (source lines 71-81)

`convertInputToUpperCase` builds a `Transform` whose `transform(chunk,
encoding, callback)` body pushes exactly `chunk.toString().toUpperCase()`
and then invokes `callback()` with no error.  JavaScript
`String.prototype.toUpperCase` on the ASCII range maps each lowercase
letter to its uppercase form and leaves every other character alone,
which is what `Char.toUpper` computes. -/

/-- The `.toUpperCase()` step of line 74, applied to the characters the
chunk decoded to: each ASCII lowercase letter is mapped to its uppercase
form and every other character is left alone (`Char.toUpper`).  The
`.toString()` decode step that produces those characters is modelled
separately by `utf8Decode` in the byte-level section below; this
function is decode-agnostic on purpose, so the character-level claims
(C2, C9, C10) do not depend on where chunk boundaries fall. -/
def jsToUpperCase (s : List Char) : List Char :=
  s.map Char.toUpper

/-- What one invocation of a transform callback produced: the chunks it
pushed downstream, and the error (if any) it passed to `callback`. -/
structure TransformOutput where
  pushed : List Chunk
  err : Option ErrorKind
deriving DecidableEq, Repr

/-- The `transform(chunk, encoding, callback)` body of
`uppercaseTransform` (lines 73-77): push the uppercased chunk, call
`callback()` with no error.  The `encoding` argument is received but
never used, exactly as in the source. -/
def uppercaseTransform (chunk : Chunk) (_encoding : Encoding) : TransformOutput :=
  { pushed := [jsToUpperCase chunk], err := none }

/-- An event observed downstream of a stage: a data chunk, or the End
signal. -/
inductive StreamEvent where
  | data (c : Chunk)
  | ended
deriving DecidableEq, Repr

/-- Drive the uppercase transform stage over a finite error-free input
sequence: each input chunk is handed to the transform body in order, the
chunks it pushes are emitted downstream in order, and when the upstream
signals End the stage forwards End (the transform has no pending
buffered output and the example defines no flush). -/
def runUppercaseStage (enc : Encoding) : List Chunk → List StreamEvent
  | [] => [.ended]
  | c :: rest =>
      ((uppercaseTransform c enc).pushed.map .data) ++ runUppercaseStage enc rest

lemma runUppercaseStage_eq (enc : Encoding) :
    ∀ inputs : List Chunk,
      runUppercaseStage enc inputs =
        inputs.map (fun c => StreamEvent.data (jsToUpperCase c)) ++ [.ended] := by
  intro inputs
  induction inputs with
  | nil => rfl
  | cons c rest ih =>
      simp [runUppercaseStage, uppercaseTransform, ih]

/-- C2: the case-transform stage emits, for each input chunk, its
uppercased text before any output for a later chunk, and it forwards End
only after the output for every received chunk: the downstream event
sequence is exactly the uppercased chunks in input order followed by
End.  In particular the input "hello" yields "HELLO" and then End. -/
theorem uppercase_stage_ordered (enc : Encoding) (inputs : List Chunk) :
    runUppercaseStage enc inputs =
        inputs.map (fun c => StreamEvent.data (jsToUpperCase c)) ++ [.ended] ∧
      runUppercaseStage enc ["hello".toList] =
        [.data "HELLO".toList, .ended] := by
  refine ⟨runUppercaseStage_eq enc inputs, ?_⟩
  rw [runUppercaseStage_eq enc]
  simp [jsToUpperCase]

/-- C9: the transform output depends only on the chunk bytes; the
`encoding` argument has no influence on the result. -/
theorem uppercaseTransform_ignores_encoding (chunk : Chunk)
    (enc1 enc2 : Encoding) :
    uppercaseTransform chunk enc1 = uppercaseTransform chunk enc2 := rfl

/-- C10: every invocation of the transform body pushes exactly one
output chunk and completes its callback without signaling an error. -/
theorem uppercaseTransform_total (chunk : Chunk) (enc : Encoding) :
    (uppercaseTransform chunk enc).pushed.length = 1 ∧
      (uppercaseTransform chunk enc).err = none := ⟨rfl, rfl⟩

/-! ## Stage chains and byte-level re-chunking (source lines 60-68, 71-81)

`zipGenerate` pipes a file source through `zlib.createGzip()` into a
file sink, and `convertInputToUpperCase` pipes standard input through
the uppercase Transform.  At byte level each Transform chunk is a
Buffer; line 74 decodes that one chunk in isolation with
`chunk.toString()` before uppercasing, and the string pushed at line 75
is re-encoded to bytes by the platform.  The decode of an isolated
fragment of a multi-byte UTF-8 character yields U+FFFD replacement
characters, which makes the per-chunk decode sensitive to where the
chunk boundaries fall. -/

/-- The U+FFFD replacement character the platform decoder substitutes
for malformed UTF-8. -/
def replacementChar : Char := Char.ofNat 0xFFFD

/-- Modelled from the spec: `chunk.toString()` (line 74) is the platform
Buffer-to-string decode, which is not repository code (the spec treats
the byte payload and its textual view as display/transform convenience,
section 3).  `utf8Step` consumes one character worth of bytes from the
head of the stream: an ASCII byte decodes to itself; a well-formed 2-,
3- or 4-byte sequence (continuation bytes in `0x80-0xBF`, no overlong
form, no surrogate, no code point above `0x10FFFF`) decodes to its
scalar value; any other byte, and any truncated or malformed sequence,
yields U+FFFD, with decoding resuming at the byte that broke the
sequence. -/
def utf8Step (b : Nat) (rest : List Nat) : Char × List Nat :=
  if b < 0x80 then
    (Char.ofNat b, rest)
  else if b < 0xC2 then
    (replacementChar, rest)
  else if b < 0xE0 then
    match rest with
    | [] => (replacementChar, [])
    | b1 :: rest1 =>
        if 0x80 ≤ b1 ∧ b1 < 0xC0 then
          (Char.ofNat ((b - 0xC0) * 64 + (b1 - 0x80)), rest1)
        else
          (replacementChar, rest)
  else if b < 0xF0 then
    match rest with
    | [] => (replacementChar, [])
    | b1 :: rest1 =>
        if (0x80 ≤ b1 ∧ b1 < 0xC0) ∧ (b = 0xE0 → 0xA0 ≤ b1) ∧
            (b = 0xED → b1 < 0xA0) then
          match rest1 with
          | [] => (replacementChar, [])
          | b2 :: rest2 =>
              if 0x80 ≤ b2 ∧ b2 < 0xC0 then
                (Char.ofNat ((b - 0xE0) * 4096 + (b1 - 0x80) * 64 + (b2 - 0x80)),
                  rest2)
              else
                (replacementChar, rest1)
        else
          (replacementChar, rest)
  else if b < 0xF5 then
    match rest with
    | [] => (replacementChar, [])
    | b1 :: rest1 =>
        if (0x80 ≤ b1 ∧ b1 < 0xC0) ∧ (b = 0xF0 → 0x90 ≤ b1) ∧
            (b = 0xF4 → b1 < 0x90) then
          match rest1 with
          | [] => (replacementChar, [])
          | b2 :: rest2 =>
              if 0x80 ≤ b2 ∧ b2 < 0xC0 then
                match rest2 with
                | [] => (replacementChar, [])
                | b3 :: rest3 =>
                    if 0x80 ≤ b3 ∧ b3 < 0xC0 then
                      (Char.ofNat ((b - 0xF0) * 262144 + (b1 - 0x80) * 4096 +
                          (b2 - 0x80) * 64 + (b3 - 0x80)), rest3)
                    else
                      (replacementChar, rest2)
              else
                (replacementChar, rest1)
        else
          (replacementChar, rest)
  else
    (replacementChar, rest)

lemma utf8Step_length (b : Nat) (rest : List Nat) :
    (utf8Step b rest).2.length ≤ rest.length := by
  rw [utf8Step.eq_def]
  repeat' split
  all_goals simp_all [List.length_cons]
  all_goals omega

/-- The whole-stream decode: repeat `utf8Step` until the bytes run out
(`chunk.toString()` over the full chunk). -/
def utf8Decode : List Nat → List Char
  | [] => []
  | b :: rest =>
      (utf8Step b rest).1 :: utf8Decode (utf8Step b rest).2
termination_by l => l.length
decreasing_by
  simp_wf
  exact Nat.lt_succ_of_le (utf8Step_length _ _)

lemma utf8Decode_nil : utf8Decode [] = [] := by
  rw [utf8Decode.eq_def]

lemma utf8Decode_cons (b : Nat) (rest : List Nat) :
    utf8Decode (b :: rest) =
      (utf8Step b rest).1 :: utf8Decode (utf8Step b rest).2 := by
  rw [utf8Decode.eq_def]

/-- Modelled from the spec: the platform re-encodes a string pushed by
a transform (line 75) back to bytes as standard UTF-8. -/
def utf8EncodeChar (c : Char) : List Nat :=
  let n := c.toNat
  if n < 0x80 then
    [n]
  else if n < 0x800 then
    [0xC0 + n / 64, 0x80 + n % 64]
  else if n < 0x10000 then
    [0xE0 + n / 4096, 0x80 + (n / 64) % 64, 0x80 + n % 64]
  else
    [0xF0 + n / 262144, 0x80 + (n / 4096) % 64, 0x80 + (n / 64) % 64,
      0x80 + n % 64]

/-- UTF-8 encoding of a whole character sequence. -/
def utf8EncodeList (l : List Char) : List Nat :=
  (l.map utf8EncodeChar).flatten

/-- The byte chunks the uppercase Transform sends downstream: each
Buffer chunk is decoded in isolation (line 74), run through the
transform body, and the pushed strings are re-encoded by the platform. -/
def byteStageOutputs (enc : Encoding) : List (List Nat) → List (List Nat)
  | [] => []
  | b :: rest =>
      (uppercaseTransform (utf8Decode b) enc).pushed.map utf8EncodeList ++
        byteStageOutputs enc rest

/-- Modelled from the spec: the `zlib.createGzip()` codec of
`zipGenerate` (line 62) is not in the repository; spec section 4.3
allows a Stage to buffer internally (block-based compression) provided
it flushes all pending output when the upstream signals End.  It is
modelled as an opaque whole-stream function `G` over bytes applied to
the concatenation of the input chunks and emitted as the flush
output. -/
def byteCodecStage (G : List Nat → List Nat) (inputs : List (List Nat)) :
    List (List Nat) :=
  [G inputs.flatten]

/-- Total output bytes of the chain Source → uppercase Stage → codec
Stage → Sink for a given chunking of the source bytes. -/
def byteChainOutput (G : List Nat → List Nat) (enc : Encoding)
    (inputs : List (List Nat)) : List Nat :=
  (byteCodecStage G (byteStageOutputs enc inputs)).flatten

lemma char_toNat_valid (c : Char) :
    c.toNat < 0xD800 ∨ (0xDFFF < c.toNat ∧ c.toNat < 0x110000) := c.valid

lemma utf8Step_ascii (b : Nat) (rest : List Nat) (h : b < 0x80) :
    utf8Step b rest = (Char.ofNat b, rest) := by
  rw [utf8Step.eq_def, if_pos h]

lemma utf8Step_two (b b1 : Nat) (rest : List Nat)
    (hb : 0xC2 ≤ b) (hb2 : b < 0xE0) (hc : 0x80 ≤ b1 ∧ b1 < 0xC0) :
    utf8Step b (b1 :: rest) =
      (Char.ofNat ((b - 0xC0) * 64 + (b1 - 0x80)), rest) := by
  rw [utf8Step.eq_def]
  rw [if_neg (by omega), if_neg (by omega), if_pos (by omega)]
  split
  next heq => simp at heq
  next bb rr heq =>
    injection heq with h h2
    subst h
    subst h2
    rw [if_pos hc]

lemma utf8Step_three (b b1 b2 : Nat) (rest : List Nat)
    (hb : 0xE0 ≤ b) (hb2 : b < 0xF0) (hc1 : 0x80 ≤ b1 ∧ b1 < 0xC0)
    (he0 : b = 0xE0 → 0xA0 ≤ b1) (hed : b = 0xED → b1 < 0xA0)
    (hc2 : 0x80 ≤ b2 ∧ b2 < 0xC0) :
    utf8Step b (b1 :: b2 :: rest) =
      (Char.ofNat ((b - 0xE0) * 4096 + (b1 - 0x80) * 64 + (b2 - 0x80)), rest) := by
  rw [utf8Step.eq_def]
  rw [if_neg (by omega), if_neg (by omega), if_neg (by omega), if_pos (by omega)]
  split
  next heq => simp at heq
  next bb rr heq =>
    injection heq with h h2
    subst h
    subst h2
    rw [if_pos ⟨hc1, he0, hed⟩]
    split
    next heq2 => simp at heq2
    next bb2 rr2 heq2 =>
      injection heq2 with h3 h4
      subst h3
      subst h4
      rw [if_pos hc2]

lemma utf8Step_four (b b1 b2 b3 : Nat) (rest : List Nat)
    (hb : 0xF0 ≤ b) (hb2 : b < 0xF5) (hc1 : 0x80 ≤ b1 ∧ b1 < 0xC0)
    (hf0 : b = 0xF0 → 0x90 ≤ b1) (hf4 : b = 0xF4 → b1 < 0x90)
    (hc2 : 0x80 ≤ b2 ∧ b2 < 0xC0) (hc3 : 0x80 ≤ b3 ∧ b3 < 0xC0) :
    utf8Step b (b1 :: b2 :: b3 :: rest) =
      (Char.ofNat ((b - 0xF0) * 262144 + (b1 - 0x80) * 4096 +
          (b2 - 0x80) * 64 + (b3 - 0x80)), rest) := by
  rw [utf8Step.eq_def]
  rw [if_neg (by omega), if_neg (by omega), if_neg (by omega),
    if_neg (by omega), if_pos (by omega)]
  split
  next heq => simp at heq
  next bb rr heq =>
    injection heq with h h2
    subst h
    subst h2
    rw [if_pos ⟨hc1, hf0, hf4⟩]
    split
    next heq2 => simp at heq2
    next bb2 rr2 heq2 =>
      injection heq2 with h3 h4
      subst h3
      subst h4
      rw [if_pos hc2]
      split
      next heq3 => simp at heq3
      next bb3 rr3 heq3 =>
        injection heq3 with h5 h6
        subst h5
        subst h6
        rw [if_pos hc3]

lemma utf8Decode_encodeChar (c : Char) (tail : List Nat) :
    utf8Decode (utf8EncodeChar c ++ tail) = c :: utf8Decode tail := by
  have hv := char_toNat_valid c
  by_cases h1 : c.toNat < 0x80
  · have he : utf8EncodeChar c = [c.toNat] := by
      simp only [utf8EncodeChar]
      rw [if_pos h1]
    rw [he, List.cons_append, List.nil_append, utf8Decode_cons,
      utf8Step_ascii _ _ h1, Char.ofNat_toNat]
  · by_cases h2 : c.toNat < 0x800
    · have he : utf8EncodeChar c = [0xC0 + c.toNat / 64, 0x80 + c.toNat % 64] := by
        simp only [utf8EncodeChar]
        rw [if_neg h1, if_pos h2]
      rw [he]
      simp only [List.cons_append, List.nil_append]
      rw [utf8Decode_cons, utf8Step_two _ _ _ (by omega) (by omega) (by omega)]
      have hval : (0xC0 + c.toNat / 64 - 0xC0) * 64 +
          (0x80 + c.toNat % 64 - 0x80) = c.toNat := by omega
      rw [hval, Char.ofNat_toNat]
    · by_cases h3 : c.toNat < 0x10000
      · have he : utf8EncodeChar c =
            [0xE0 + c.toNat / 4096, 0x80 + (c.toNat / 64) % 64,
              0x80 + c.toNat % 64] := by
          simp only [utf8EncodeChar]
          rw [if_neg h1, if_neg h2, if_pos h3]
        rw [he]
        simp only [List.cons_append, List.nil_append]
        rw [utf8Decode_cons, utf8Step_three _ _ _ _ (by omega) (by omega)
          (by omega) (by intro h; omega) (by intro h; omega) (by omega)]
        have hval : (0xE0 + c.toNat / 4096 - 0xE0) * 4096 +
            (0x80 + (c.toNat / 64) % 64 - 0x80) * 64 +
            (0x80 + c.toNat % 64 - 0x80) = c.toNat := by omega
        rw [hval, Char.ofNat_toNat]
      · have h4 : c.toNat < 0x110000 := by omega
        have he : utf8EncodeChar c =
            [0xF0 + c.toNat / 262144, 0x80 + (c.toNat / 4096) % 64,
              0x80 + (c.toNat / 64) % 64, 0x80 + c.toNat % 64] := by
          simp only [utf8EncodeChar]
          rw [if_neg h1, if_neg h2, if_neg h3]
        rw [he]
        simp only [List.cons_append, List.nil_append]
        rw [utf8Decode_cons, utf8Step_four _ _ _ _ _ (by omega) (by omega)
          (by omega) (by intro h; omega) (by intro h; omega) (by omega)
          (by omega)]
        have hval : (0xF0 + c.toNat / 262144 - 0xF0) * 262144 +
            (0x80 + (c.toNat / 4096) % 64 - 0x80) * 4096 +
            (0x80 + (c.toNat / 64) % 64 - 0x80) * 64 +
            (0x80 + c.toNat % 64 - 0x80) = c.toNat := by omega
        rw [hval, Char.ofNat_toNat]

lemma utf8Decode_encodeList (l : List Char) :
    utf8Decode (utf8EncodeList l) = l := by
  induction l with
  | nil => exact utf8Decode_nil
  | cons c l ih =>
      have he : utf8EncodeList (c :: l) = utf8EncodeChar c ++ utf8EncodeList l := by
        simp [utf8EncodeList]
      rw [he, utf8Decode_encodeChar, ih]

lemma jsToUpperCase_append (a b : List Char) :
    jsToUpperCase (a ++ b) = jsToUpperCase a ++ jsToUpperCase b := by
  simp [jsToUpperCase]

lemma utf8EncodeList_append (a b : List Char) :
    utf8EncodeList (a ++ b) = utf8EncodeList a ++ utf8EncodeList b := by
  simp [utf8EncodeList]

lemma byteStageOutputs_flatten_aligned (enc : Encoding) :
    ∀ css : List (List Char),
      (byteStageOutputs enc (css.map utf8EncodeList)).flatten =
        utf8EncodeList (jsToUpperCase css.flatten) := by
  intro css
  induction css with
  | nil => rfl
  | cons l rest ih =>
      simp only [List.map_cons, byteStageOutputs, uppercaseTransform,
        utf8Decode_encodeList, List.map_nil, List.flatten_cons,
        List.flatten_append, List.flatten_nil, List.append_nil, ih,
        jsToUpperCase_append, utf8EncodeList_append]

/-- C3 counterexample: the claim fails on the code at byte level.  The
two-byte UTF-8 character 0xC3 0xA9 split across two chunks is decoded
per chunk (line 74) into two U+FFFD replacement characters, so the
pipeline output (six replacement bytes) differs from the output on the
undivided chunking (the two original bytes), although both chunkings
carry the same concatenated input bytes. -/
theorem chain_rechunking_counterexample :
    ([[0xC3], [0xA9]] : List (List Nat)).flatten =
        ([[0xC3, 0xA9]] : List (List Nat)).flatten ∧
      byteChainOutput id "utf8" [[0xC3], [0xA9]] ≠
        byteChainOutput id "utf8" [[0xC3, 0xA9]] := by
  have d1 : utf8Decode [0xC3] = [replacementChar] := by
    rw [utf8Decode_cons, show utf8Step 0xC3 [] = (replacementChar, []) from rfl,
      utf8Decode_nil]
  have d2 : utf8Decode [0xA9] = [replacementChar] := by
    rw [utf8Decode_cons, show utf8Step 0xA9 [] = (replacementChar, []) from rfl,
      utf8Decode_nil]
  have d3 : utf8Decode [0xC3, 0xA9] = [Char.ofNat 0xE9] := by
    rw [utf8Decode_cons, utf8Step_two 0xC3 0xA9 [] (by omega) (by omega) (by omega),
      utf8Decode_nil]
  have t1 : jsToUpperCase [replacementChar] = [replacementChar] := by decide
  have t2 : utf8EncodeList [replacementChar] = [0xEF, 0xBF, 0xBD] := by decide
  have t3 : jsToUpperCase [Char.ofNat 0xE9] = [Char.ofNat 0xE9] := by decide
  have t4 : utf8EncodeList [Char.ofNat 0xE9] = [0xC3, 0xA9] := by decide
  have e1 : byteChainOutput id "utf8" [[0xC3], [0xA9]] =
      [0xEF, 0xBF, 0xBD, 0xEF, 0xBF, 0xBD] := by
    simp [byteChainOutput, byteCodecStage, byteStageOutputs, uppercaseTransform,
      d1, d2, t1, t2]
  have e2 : byteChainOutput id "utf8" [[0xC3, 0xA9]] = [0xC3, 0xA9] := by
    simp [byteChainOutput, byteCodecStage, byteStageOutputs, uppercaseTransform,
      d3, t3, t4]
  refine ⟨rfl, ?_⟩
  rw [e1, e2]
  decide

/-- C3 (amended): for every input byte stream and every way of splitting
it into chunks that respects UTF-8 character boundaries (each chunk
carries the encoding of a whole sequence of characters), running it
through the chain of stages produces the same total output bytes as
applying the composed stage functions to the whole undivided byte
stream; the pipeline output is invariant under such re-chunking.  Splits
inside a multi-byte character are excluded: the per-chunk decode of
line 74 turns them into U+FFFD replacement characters and changes the
output. -/
theorem chain_rechunking_invariant_aligned (G : List Nat → List Nat)
    (enc1 enc2 : Encoding) (css1 css2 : List (List Char))
    (h : css1.flatten = css2.flatten) :
    byteChainOutput G enc1 (css1.map utf8EncodeList) =
        byteChainOutput G enc2 (css2.map utf8EncodeList) ∧
      byteChainOutput G enc1 (css1.map utf8EncodeList) =
        G (utf8EncodeList (jsToUpperCase css1.flatten)) := by
  have h1 : byteChainOutput G enc1 (css1.map utf8EncodeList) =
      G (utf8EncodeList (jsToUpperCase css1.flatten)) := by
    simp [byteChainOutput, byteCodecStage, byteStageOutputs_flatten_aligned]
  have h2 : byteChainOutput G enc2 (css2.map utf8EncodeList) =
      G (utf8EncodeList (jsToUpperCase css2.flatten)) := by
    simp [byteChainOutput, byteCodecStage, byteStageOutputs_flatten_aligned]
  exact ⟨by rw [h1, h2, h], h1⟩

/-- Witness for the amended C3: the character-aligned chunkings
["aé"] and ["a","é"] of the same bytes (the second chunk boundary
falls between the characters, not inside the two-byte é), an arbitrary
non-trivial codec (reversal), two different encodings. -/
theorem chain_rechunking_invariant_aligned_witness :
    ([['a', 'é']] : List (List Char)).flatten =
        ([['a'], ['é']] : List (List Char)).flatten ∧
      (byteChainOutput List.reverse "utf8"
            (([['a', 'é']] : List (List Char)).map utf8EncodeList) =
          byteChainOutput List.reverse "ascii"
            (([['a'], ['é']] : List (List Char)).map utf8EncodeList) ∧
        byteChainOutput List.reverse "utf8"
            (([['a', 'é']] : List (List Char)).map utf8EncodeList) =
          List.reverse (utf8EncodeList
            (jsToUpperCase ([['a', 'é']] : List (List Char)).flatten))) :=
  ⟨by decide,
    chain_rechunking_invariant_aligned List.reverse "utf8" "ascii"
      [['a', 'é']] [['a'], ['é']] (by decide)⟩

/-! ## The Pipe control loop (source lines 50-57, 54)

`readWriteStream` and `zipGenerate` connect endpoints with `pipe`, whose
control loop lives in the platform stream implementation, not in the
repository; it is modelled from spec section 4.4. -/

/-- Terminal / running status of a Pipe (spec section 4.4 state machine,
restricted to the error-free runs the claims quantify over). -/
inductive PipeStatus where
  | running
  | completed
deriving DecidableEq, Repr

/-- Modelled from the spec: the state of the `pipe` controller of
`readWriteStream` (line 54).  `pending` is what the upstream Source has
not yet produced, `buffer` holds the polled chunks not yet written
downstream (the in-flight data), `received` is what the Sink has
accepted so far, and `buffered` is the buffered byte count of spec
section 3. -/
structure PipeState where
  pending : List Chunk
  buffer : List Chunk
  received : List Chunk
  buffered : Nat
  status : PipeStatus
deriving DecidableEq, Repr

/-- Modelled from the spec, section 4.4, error-free Sink: one scheduling
step of the Pipe control loop.  If a chunk is in flight, write it
downstream; the Sink accepts it and the buffered count drops by its
size.  Otherwise poll the upstream, but only while the buffered count is
below the high watermark `hwm`; a produced chunk raises the buffered
count by its size.  When the upstream is exhausted and the buffer
drained, close the downstream and move to `completed`; terminal states
are absorbing. -/
def pipeStep (hwm : Nat) (s : PipeState) : PipeState :=
  match s.status with
  | .completed => s
  | .running =>
      match s.buffer with
      | c :: rest =>
          { s with buffer := rest, received := s.received ++ [c],
                   buffered := s.buffered - c.length }
      | [] =>
          match s.pending with
          | [] => { s with status := .completed }
          | c :: ps =>
              if s.buffered < hwm then
                { s with pending := ps, buffer := [c],
                         buffered := s.buffered + c.length }
              else
                s

/-- Run the Pipe control loop for `n` scheduling steps. -/
def pipeRun (hwm : Nat) : Nat → PipeState → PipeState
  | 0, s => s
  | n + 1, s => pipeRun hwm n (pipeStep hwm s)

/-- The Pipe state right after `readableStream.pipe(writableStream)`:
the source still holds all its chunks, nothing buffered or delivered. -/
def pipeInit (chunks : List Chunk) : PipeState :=
  { pending := chunks, buffer := [], received := [], buffered := 0,
    status := .running }

lemma pipeRun_drain (hwm : Nat) (hpos : 0 < hwm) :
    ∀ (l r : List Chunk),
      pipeRun hwm (2 * l.length + 1)
          { pending := l, buffer := [], received := r, buffered := 0,
            status := .running } =
        { pending := [], buffer := [], received := r ++ l, buffered := 0,
          status := .completed } := by
  intro l
  induction l with
  | nil =>
      intro r
      simp [pipeRun, pipeStep]
  | cons c ps ih =>
      intro r
      have hlen : 2 * (c :: ps).length + 1 = (2 * ps.length + 1) + 1 + 1 := by
        simp [List.length_cons]; ring
      rw [hlen, pipeRun, pipeRun]
      have h1 : pipeStep hwm
          { pending := c :: ps, buffer := [], received := r, buffered := 0,
            status := .running } =
          { pending := ps, buffer := [c], received := r,
            buffered := 0 + c.length, status := .running } := by
        simp [pipeStep, hpos]
      have h2 : pipeStep hwm
          { pending := ps, buffer := [c], received := r,
            buffered := 0 + c.length, status := .running } =
          { pending := ps, buffer := [], received := r ++ [c],
            buffered := 0 + c.length - c.length, status := .running } := by
        simp [pipeStep]
      rw [h1, h2]
      have hz : 0 + c.length - c.length = 0 := by omega
      rw [hz]
      simpa using ih (r ++ [c])

/-- C1: for every finite error-free chunk sequence, the Pipe of
`readWriteStream` drives every chunk from the source to the sink
unchanged and in order, and reaches `Completed`: after the control loop
runs to completion the sink has received exactly the source chunks, so
the concatenated bytes agree and nothing is dropped, duplicated or
reordered. -/
theorem readWriteStream_pipe_preserves_chunks (chunks : List Chunk)
    (hwm : Nat) (hpos : 0 < hwm) :
    (pipeRun hwm (2 * chunks.length + 1) (pipeInit chunks)).status =
        .completed ∧
      (pipeRun hwm (2 * chunks.length + 1) (pipeInit chunks)).received =
        chunks ∧
      (pipeRun hwm (2 * chunks.length + 1)
          (pipeInit chunks)).received.flatten = chunks.flatten := by
  have h := pipeRun_drain hwm hpos chunks []
  rw [pipeInit, h]
  exact ⟨rfl, by simp, by simp⟩

/-- Witness for C1, the scenario of the spec: the source emits "ab" then
"cd" then End (high watermark 16384, the platform default); the pipe
completes and the sink receives "ab" then "cd". -/
theorem readWriteStream_pipe_preserves_chunks_witness :
    0 < 16384 ∧
      ((pipeRun 16384 (2 * ["ab".toList, "cd".toList].length + 1)
            (pipeInit ["ab".toList, "cd".toList])).status = .completed ∧
        (pipeRun 16384 (2 * ["ab".toList, "cd".toList].length + 1)
            (pipeInit ["ab".toList, "cd".toList])).received =
          ["ab".toList, "cd".toList] ∧
        (pipeRun 16384 (2 * ["ab".toList, "cd".toList].length + 1)
            (pipeInit ["ab".toList, "cd".toList])).received.flatten =
          ["ab".toList, "cd".toList].flatten) :=
  ⟨by decide,
    readWriteStream_pipe_preserves_chunks ["ab".toList, "cd".toList] 16384
      (by decide)⟩

/-- States of the Pipe control loop in which every chunk the upstream
may still produce is at most `m` bytes and the buffered count is within
one such chunk of the high watermark. -/
def PipeWithinWatermark (hwm m : Nat) (s : PipeState) : Prop :=
  (∀ c ∈ s.pending, c.length ≤ m) ∧ s.buffered ≤ hwm + m

lemma pipeStep_within (hwm m : Nat) (s : PipeState)
    (h : PipeWithinWatermark hwm m s) :
    PipeWithinWatermark hwm m (pipeStep hwm s) := by
  obtain ⟨hpend, hbuf⟩ := h
  unfold pipeStep
  cases s.status with
  | completed => exact ⟨hpend, hbuf⟩
  | running =>
      cases hb : s.buffer with
      | cons c rest =>
          exact ⟨hpend, by simp; omega⟩
      | nil =>
          cases hp : s.pending with
          | nil => exact ⟨by simp [hp] at hpend ⊢, hbuf⟩
          | cons c ps =>
              dsimp only
              by_cases hlt : s.buffered < hwm
              · rw [if_pos hlt]
                have hc : c.length ≤ m := hpend c (by rw [hp]; simp)
                refine ⟨?_, ?_⟩
                · intro d hd
                  simp only at hd
                  exact hpend d (by rw [hp]; exact List.mem_cons_of_mem c hd)
                · simp only
                  omega
              · rw [if_neg hlt]
                exact ⟨hpend, hbuf⟩

lemma pipeRun_within (hwm m : Nat) :
    ∀ (n : Nat) (s : PipeState), PipeWithinWatermark hwm m s →
      PipeWithinWatermark hwm m (pipeRun hwm n s) := by
  intro n
  induction n with
  | zero => intro s h; exact h
  | succ n ih => intro s h; exact ih _ (pipeStep_within hwm m s h)

/-- C7: in every reachable state of the Pipe control loop, if every
chunk the source produces is at most `m` bytes, the buffered byte count
never exceeds the high watermark by more than that one in-flight chunk:
`buffered ≤ hwm + m` after any number of scheduling steps. -/
theorem pipe_buffered_within_watermark (chunks : List Chunk)
    (hwm m n : Nat) (hsize : ∀ c ∈ chunks, c.length ≤ m) :
    (pipeRun hwm n (pipeInit chunks)).buffered ≤ hwm + m :=
  (pipeRun_within hwm m n (pipeInit chunks)
    ⟨by simpa [pipeInit] using hsize, by simp [pipeInit]⟩).2

/-- Witness for C7: two-byte chunks, high watermark 4, three steps (the
state right after the first poll, where the buffered count is 2). -/
theorem pipe_buffered_within_watermark_witness :
    (∀ c ∈ ["ab".toList, "cd".toList], c.length ≤ 2) ∧
      (pipeRun 4 3 (pipeInit ["ab".toList, "cd".toList])).buffered ≤ 4 + 2 :=
  ⟨by decide,
    pipe_buffered_within_watermark ["ab".toList, "cd".toList] 4 2 3
      (by decide)⟩
